import Mathlib

/-!
Formal model of the core of `pyhub-installer`: the chunked downloader
(`internal/download`), the archive extractor (`internal/extract`) and the
writable-install-path resolver (`internal/install`).  Paths and file names are
modelled as `List Char` (Go strings over a POSIX file system, `os.PathSeparator
= '/'`); byte contents are modelled as `List Nat`.  Each definition is a direct
translation of the corresponding Go function; the Go helpers from the standard
library that the code calls (`strings.Split`, `filepath.Clean`,
`filepath.Join`, `strings.HasPrefix`, ...) are modelled segment-for-segment for
the POSIX (`GOOS = linux`) build that the resolver claims are stated about.
-/

/-- Model of `strings.Split(s, sep)` for a one-character separator:
`splitOnChar sep s` never returns `[]`; splitting the empty string yields
`[[]]`, exactly as in Go. -/
def splitOnChar (sep : Char) : List Char → List (List Char)
  | [] => [[]]
  | c :: cs =>
    if c = sep then [] :: splitOnChar sep cs
    else
      match splitOnChar sep cs with
      | [] => [[c]]
      | p :: ps => (c :: p) :: ps

/-- `strings.Join(parts, "/")`: interleave a `'/'` between the parts. -/
def joinSlash : List (List Char) → List Char
  | [] => []
  | [p] => p
  | p :: ps => p ++ '/' :: joinSlash ps

/-- The segment loop of Go's `filepath.Clean` (POSIX rules): skip empty and
`"."` segments, let `".."` pop a previous real segment, drop `".."` at the root
of a rooted path, and keep `".."` at the front of a relative path.  The stack
is kept reversed (most recent segment first). -/
def cleanLoop (rooted : Bool) : List (List Char) → List (List Char) → List (List Char)
  | rstack, [] => rstack.reverse
  | rstack, seg :: rest =>
    if seg = [] ∨ seg = ['.'] then cleanLoop rooted rstack rest
    else if seg = ['.', '.'] then
      match rstack with
      | [] => if rooted then cleanLoop rooted [] rest else cleanLoop rooted [['.', '.']] rest
      | top :: more =>
        if top = ['.', '.'] then cleanLoop rooted (seg :: top :: more) rest
        else cleanLoop rooted more rest
    else cleanLoop rooted (seg :: rstack) rest

/-- Model of Go's `filepath.Clean` on POSIX paths. -/
def goClean (p : List Char) : List Char :=
  let rooted := p.head? = some '/'
  let stack := cleanLoop rooted [] (splitOnChar '/' p)
  if rooted then '/' :: joinSlash stack
  else if stack = [] then ['.'] else joinSlash stack

/-- Model of Go's `filepath.Join(a, b)`: drop empty elements, join the rest
with `'/'` and `Clean` the result; `Join("", "") = ""`. -/
def goJoin2 (a b : List Char) : List Char :=
  if a = [] then (if b = [] then [] else goClean b)
  else if b = [] then goClean a
  else goClean (a ++ '/' :: b)

/-- `strings.HasPrefix s pre` (argument order: the candidate first). -/
def hasPrefixL (pre s : List Char) : Bool := pre.isPrefixOf s

/-- `Chunk` from `internal/download/download.go`: a byte range
`[Start, End]` (inclusive) together with its 0-based `Index`.  Offsets are
modelled as `Nat`; the Go fields are `int64` and none of the arithmetic below
exceeds `int64` for any realizable content length. -/
structure Chunk where
  Start : Nat
  End : Nat
  Index : Nat

deriving Repr, DecidableEq

/-- The loop body of `ChunkDownloader.createChunks`:
`for i := 0; i < contentLength; i += ChunkSize` appends
`{Start: i, End: min(i+ChunkSize-1, contentLength-1), Index: len(chunks)}`.
A zero `ChunkSize` makes the Go loop diverge; the model returns `[]` there
(all statements below assume `0 < ChunkSize`). -/
def chunksLoop (cl cs i idx : Nat) : List Chunk :=
  if h : 0 < cs ∧ i < cl then
    ⟨i, if cl ≤ i + cs - 1 then cl - 1 else i + cs - 1, idx⟩ ::
      chunksLoop cl cs (i + cs) (idx + 1)
  else []
termination_by cl - i
decreasing_by simp_wf; omega

/-- `ChunkDownloader.createChunks(contentLength)` with chunk size `cs`. -/
def createChunks (contentLength chunkSize : Nat) : List Chunk :=
  chunksLoop contentLength chunkSize 0 0

/-- `stripTopLevel` from `internal/extract/extract.go`: split on `"/"`; if
there is more than one part, rejoin everything after the first part, otherwise
return the empty string. -/
def stripTopLevel (path : List Char) : List Char :=
  let parts := splitOnChar '/' path
  if 1 < parts.length then joinSlash parts.tail else []

/-- `strings.Split(name, "/")[0]`: the first slash-delimited segment of an
entry name (empty for an empty name or a name starting with `'/'`). -/
def firstSeg (name : List Char) : List Char :=
  (splitOnChar '/' name).headD []

/-- The body of `detectTopLevelDirsZip` / `detectTopLevelDirsTar`: collect
`strings.Split(name, "/")[0]` of every entry when it is nonempty.  The Go code
stores them in a `map[string]bool`, of which only the size and membership are
ever used; the model keeps the set as a duplicate-free list. -/
def detectLoop (acc : List (List Char)) : List (List Char) → List (List Char)
  | [] => acc
  | n :: rest =>
    let h := firstSeg n
    if h ≠ [] ∧ h ∉ acc then detectLoop (acc ++ [h]) rest else detectLoop acc rest

/-- `detectTopLevelDirsZip`/`detectTopLevelDirsTar` over entry names. -/
def detectTopLevelDirs (names : List (List Char)) : List (List Char) :=
  detectLoop [] names

/-- `Extractor.shouldFlatten`: flatten when the explicit flag is set, or when
auto-flatten is enabled and exactly one top-level directory was detected. -/
def shouldFlatten (flatten autoFlatten : Bool) (topLevelDirs : List (List Char)) : Bool :=
  if flatten then true
  else if autoFlatten ∧ topLevelDirs.length = 1 then true
  else false

/-- A ZIP entry: its stored name and whether `file.FileInfo().IsDir()`. -/
inductive ZipKind
  | dir
  | reg (content : List Nat)

deriving DecidableEq

structure ZipEntry where
  name : List Char
  kind : ZipKind

deriving DecidableEq

/-- A TAR entry: `header.Typeflag` is `TypeDir`, `TypeReg`, or anything else
(symlinks, devices, ... — skipped by the extractor). -/
inductive TarKind
  | dir
  | reg (content : List Nat)
  | other

deriving DecidableEq

structure TarEntry where
  name : List Char
  kind : TarKind

deriving DecidableEq

/-- A file-system effect of extraction: the `os.MkdirAll(destPath, mode)` /
`os.OpenFile(destPath, O_WRONLY|O_CREATE|O_TRUNC, mode)`+`io.Copy` performed
for one entry.  (`os.MkdirAll(filepath.Dir(destPath), 0755)` before a file
write creates only ancestors of `destPath` below the pre-created destination
root, so it is subsumed by the entry's own path here.) -/
inductive FsAction
  | mkdir (path : List Char)
  | write (path : List Char) (content : List Nat)

deriving DecidableEq

def FsAction.path : FsAction → List Char
  | .mkdir p => p
  | .write p _ => p

/-- The per-entry name actually extracted: the stored name, flattened first
when flattening is in effect (the `fileName` local of `extractZipFile` and
`extractTarFile`). -/
def postFlattenName (flattenNow : Bool) (name : List Char) : List Char :=
  if flattenNow then stripTopLevel name else name

/-- `Extractor.extractZipFile(file, shouldFlatten)`: flatten the stored name
first (skipping an entry that flattens to `""`), join it onto `DestPath`,
reject the entry when the joined path does not start with
`Clean(DestPath) + "/"`, then create a directory or write the file. -/
def extractZipFile (dest : List Char) (flattenNow : Bool) (e : ZipEntry) :
    Except (List Char) (List FsAction) :=
  let fileName := postFlattenName flattenNow e.name
  if flattenNow ∧ fileName = [] then .ok []
  else
    let destPath := goJoin2 dest fileName
    if ¬ hasPrefixL (goClean dest ++ ['/']) destPath then .error e.name
    else
      match e.kind with
      | .dir => .ok [.mkdir destPath]
      | .reg content => .ok [.write destPath content]

/-- `Extractor.extractTarFile(header, reader, shouldFlatten)`: same flatten
and path check as the ZIP case; `TypeDir` makes a directory, `TypeReg` writes
the file, any other type flag is silently skipped. -/
def extractTarFile (dest : List Char) (flattenNow : Bool) (e : TarEntry) :
    Except (List Char) (List FsAction) :=
  let fileName := postFlattenName flattenNow e.name
  if flattenNow ∧ fileName = [] then .ok []
  else
    let destPath := goJoin2 dest fileName
    if ¬ hasPrefixL (goClean dest ++ ['/']) destPath then .error e.name
    else
      match e.kind with
      | .dir => .ok [.mkdir destPath]
      | .reg content => .ok [.write destPath content]
      | .other => .ok []

/-- The entry loop of `extractZip`: process entries in order, abort on the
first entry error (returning it), and otherwise accumulate the performed
file-system actions.  The first component is the list of actions performed
before the run ended (normally or by abort). -/
def extractZipLoop (dest : List Char) (flattenNow : Bool) :
    List ZipEntry → List FsAction × Option (List Char)
  | [] => ([], none)
  | e :: rest =>
    match extractZipFile dest flattenNow e with
    | .error m => ([], some m)
    | .ok acts =>
      let r := extractZipLoop dest flattenNow rest
      (acts ++ r.1, r.2)

/-- The entry loop of `extractTarReaderWithFlatten`. -/
def extractTarLoop (dest : List Char) (flattenNow : Bool) :
    List TarEntry → List FsAction × Option (List Char)
  | [] => ([], none)
  | e :: rest =>
    match extractTarFile dest flattenNow e with
    | .error m => ([], some m)
    | .ok acts =>
      let r := extractTarLoop dest flattenNow rest
      (acts ++ r.1, r.2)

/-- `Extractor.extractZip`: detect top-level directories, decide flattening,
then run the entry loop. -/
def extractZip (dest : List Char) (flatten autoFlatten : Bool)
    (entries : List ZipEntry) : List FsAction × Option (List Char) :=
  let topDirs := detectTopLevelDirs (entries.map ZipEntry.name)
  extractZipLoop dest (shouldFlatten flatten autoFlatten topDirs) entries

/-- `Extractor.extractTarWithFlatten`: the first pass detects top-level
directories (only when a flatten flag is set; `shouldFlatten` is `false`
otherwise, exactly as in the Go code), the second pass extracts. -/
def extractTarArchive (dest : List Char) (flatten autoFlatten : Bool)
    (entries : List TarEntry) : List FsAction × Option (List Char) :=
  let topDirs := detectTopLevelDirs (entries.map TarEntry.name)
  extractTarLoop dest (shouldFlatten flatten autoFlatten topDirs) entries

deriving instance DecidableEq for Except

/-- The worker fan-out of `ChunkDownloader.Download`: each goroutine stores
its temp file in `tempFiles[idx]`, the slot of its own chunk index.  `order`
is the sequence in which workers complete (each writes its own slot once);
slot `i` receives chunk `i`'s bytes regardless of position in `order`. -/
def runWorkers (contents : List (List Nat)) (order : List Nat) :
    List (Option (List Nat)) :=
  order.foldl (fun slots i => slots.set i (some (contents.getD i [])))
    (List.replicate contents.length none)

/-- `ChunkDownloader.mergeChunks(tempFiles)`: iterate the slots in index
order 0..n-1, skip `nil` slots, and concatenate the chunk bytes into the
output file. -/
def mergeChunks (slots : List (Option (List Nat))) : List Nat :=
  slots.foldr (fun s acc => match s with | none => acc | some c => c ++ acc) []

/-- A flat file-system state: `files` maps paths to byte contents (newest
binding first — `os.OpenFile(..., O_TRUNC, ...)` replaces the content), and
`dirs` records created directories (`os.MkdirAll` is a no-op when the
directory already exists). -/
structure FS where
  files : List (List Char × List Nat)
  dirs : List (List Char)

/-- Read the current content of `p`, if the file exists. -/
def readFile (fs : FS) (p : List Char) : Option (List Nat) :=
  (fs.files.find? (fun kv => decide (kv.1 = p))).map Prod.snd

/-- Apply one extraction action to the file system: a directory create, or a
truncating file write. -/
def applyAction (fs : FS) : FsAction → FS
  | .mkdir p => ⟨fs.files, p :: fs.dirs⟩
  | .write p c => ⟨(p, c) :: fs.files, fs.dirs⟩

/-- Apply the actions of an extraction run in order. -/
def applyActions (fs : FS) (as : List FsAction) : FS :=
  as.foldl applyAction fs

/-- Whether an action is a (truncating) write to path `p`. -/
def isWriteTo (a : FsAction) (p : List Char) : Bool :=
  match a with
  | .write q _ => decide (q = p)
  | .mkdir _ => false

/-- Model of `ChunkDownloader.downloadSingle`: a non-200 response returns an
error before the destination file is created (`os.Create` happens after the
status check); otherwise the destination is created (truncated to empty) and
the body is streamed into it with `io.Copy`.  `failAfter = some k` models a
mid-stream network error after `k` bytes were copied: `io.Copy`'s error is
returned, and the function has no cleanup path — the partially written
destination file is left in place.  The second component is the destination
file's state after the call. -/
def downloadSingle (status : Nat) (body : List Nat) (failAfter : Option Nat) :
    Except Unit Unit × Option (List Nat) :=
  if status ≠ 200 then (.error (), none)
  else
    match failAfter with
    | none => (.ok (), some body)
    | some k => (.error (), some (body.take k))

/-- Model of the failure behaviour of `ChunkDownloader.mergeChunks`: the
output file is created first (`os.Create`), then chunks are copied in slot
order; `failAt = some j` models an I/O error while copying chunk `j`, after
chunks `0..j-1` were already appended.  No cleanup of the output file is
performed on the error path. -/
def mergeChunksPartial (chunks : List (List Nat)) (failAt : Option Nat) :
    Except Unit Unit × Option (List Nat) :=
  match failAt with
  | none => (.ok (), some chunks.flatten)
  | some j => (.error (), some ((chunks.take j).flatten))

/-- C5 as stated: whenever a download fails, the destination file either
holds exactly the served bytes or does not exist. -/
def downloadNoPartialClaim : Prop :=
  ∀ (status : Nat) (body : List Nat) (failAfter : Option Nat),
    (downloadSingle status body failAfter).1.isOk = false →
    (downloadSingle status body failAfter).2 = some body ∨
    (downloadSingle status body failAfter).2 = none

/-- `strings.ToLower` on the ASCII fragment all dispatch suffixes live in
(Go's Unicode table and this map agree on ASCII): the model is Lean's
`Char.toLower`. -/
def lowerL (s : List Char) : List Char := s.map Char.toLower

/-- The scan of Go's `filepath.Ext` over the reversed path: collect characters
from the end until the first `'.'` (keeping it), aborting at a `'/'` or at the
start of the string (no extension). -/
def extRevA : List Char → List Char
  | [] => []
  | c :: cs =>
    if c = '/' then []
    else if c = '.' then ['.']
    else
      match extRevA cs with
      | [] => []
      | e => c :: e

/-- `filepath.Ext(p)`: the suffix of `p` from its final dot, empty when the
last slash-separated element has no dot. -/
def goExt (p : List Char) : List Char :=
  (extRevA p.reverse).reverse

/-- `filepath.Base(p)`: strip trailing slashes, take everything after the
last `'/'`; `""` gives `"."` and an all-slash path gives `"/"`. -/
def goBase (p : List Char) : List Char :=
  if p = [] then ['.']
  else
    let r := p.reverse.dropWhile (fun c => c = '/')
    if r = [] then ['/']
    else (r.takeWhile (fun c => ¬ c = '/')).reverse

/-- `strings.TrimSuffix(s, suf)`: remove `suf` only when `s` literally ends
with it (a case-sensitive check). -/
def trimSuffixL (s suf : List Char) : List Char :=
  if suf.isSuffixOf s then s.take (s.length - suf.length) else s

/-- The outcome of `Extractor.Extract`'s format dispatch. -/
inductive ExtractAction
  | zip
  | tar
  | targz
  | gzip (outputName : List Char)
  | unsupported (ext : List Char)

deriving DecidableEq

/-- `Extractor.Extract`: switch on `strings.ToLower(filepath.Ext(ArchivePath))`;
`.zip` → ZIP reader; `.gz` → gzip+TAR when the lowercased full name ends in
`.tar.gz`, otherwise single-file gzip whose output name is
`strings.TrimSuffix(filepath.Base(ArchivePath), ".gz")` (a case-sensitive
trim); `.tar` → TAR reader; anything else → unsupported-format error carrying
the extension. -/
def extractDispatch (p : List Char) : ExtractAction :=
  if lowerL (goExt p) = ".zip".data then .zip
  else if lowerL (goExt p) = ".gz".data then
    if (".tar.gz".data).isSuffixOf (lowerL p) then .targz
    else .gzip (trimSuffixL (goBase p) ".gz".data)
  else if lowerL (goExt p) = ".tar".data then .tar
  else .unsupported (lowerL (goExt p))

/-- The dispatch exactly as C6 states it: case-insensitive suffix tests on
the file name, with the single-file gzip output being the base name with the
trailing `.gz` (its last three characters) removed. -/
def claimDispatchC6 (p : List Char) : ExtractAction :=
  if (".zip".data).isSuffixOf (lowerL p) then .zip
  else if (".tar".data).isSuffixOf (lowerL p) then .tar
  else if (".tar.gz".data).isSuffixOf (lowerL p) then .targz
  else if (".gz".data).isSuffixOf (lowerL p) then
    .gzip ((goBase p).take ((goBase p).length - 3))
  else .unsupported (lowerL (goExt p))

/-- C6 amended: as `claimDispatchC6`, except that the trailing `.gz` is
removed from the base name only when it is literally the lowercase `.gz`
(`strings.TrimSuffix` is case-sensitive), so e.g. `data.GZ` keeps its
suffix. -/
def amendedDispatchC6 (p : List Char) : ExtractAction :=
  if (".zip".data).isSuffixOf (lowerL p) then .zip
  else if (".tar".data).isSuffixOf (lowerL p) then .tar
  else if (".tar.gz".data).isSuffixOf (lowerL p) then .targz
  else if (".gz".data).isSuffixOf (lowerL p) then
    .gzip (trimSuffixL (goBase p) ".gz".data)
  else .unsupported (lowerL (goExt p))

/-- `strings.Contains(s, sub)`: `sub` occurs somewhere in `s` (the empty
string occurs in everything). -/
def containsSub (s sub : List Char) : Bool :=
  match s with
  | [] => sub.isPrefixOf []
  | c :: t => if sub.isPrefixOf (c :: t) then true else containsSub t sub

/-- `isProblematicPath` (the `GOOS = linux` branch): skip empty or `"."`, and
skip anything under the fixed deny-list of typically read-only roots. -/
def isProblematicPath (dir : List Char) : Bool :=
  decide (dir = []) || decide (dir = ['.']) ||
  hasPrefixL ("/sbin".data) dir || hasPrefixL ("/usr/sbin".data) dir ||
  hasPrefixL ("/System".data) dir || hasPrefixL ("/Windows".data) dir ||
  hasPrefixL ("/Program Files".data) dir

/-- `isPreferredSystemPath` (the Unix branch): exact equality against the
four preferred tool directories — the Go code compares the original `dir`,
not the lowercased copy. -/
def isPreferredSystemPath (dir : List Char) : Bool :=
  decide (dir = "/usr/local/bin".data) || decide (dir = "/opt/homebrew/bin".data) ||
  decide (dir = "/snap/bin".data) || decide (dir = "/opt/local/bin".data)

/-- `isLanguageSpecificPath`: lowercase the path (`filepath.ToSlash` is the
identity on POSIX) and test the ecosystem substring heuristics, transcribed
clause for clause from the Go function. -/
def isLanguageSpecificPath (dir0 : List Char) : Bool :=
  let dir := lowerL dir0
  (containsSub dir ("python".data) &&
    ((containsSub dir ("python".data) && containsSub dir ("scripts".data)) ||
     containsSub dir ("site-packages".data) ||
     containsSub dir ("/python".data) || containsSub dir ("\\python".data))) ||
  containsSub dir ("conda".data) || containsSub dir ("anaconda".data) ||
  containsSub dir ("node_modules".data) || containsSub dir ("npm".data) ||
  containsSub dir ("nodejs".data) ||
  containsSub dir ("/gems/".data) || containsSub dir ("/ruby/".data) ||
  containsSub dir ("/.gem/".data) ||
  containsSub dir ("/.cargo/bin".data) || containsSub dir ("\\.cargo\\bin".data) ||
  (containsSub dir ("/go/bin".data) && !containsSub dir ("/usr/local/go/bin".data)) ||
  containsSub dir ("/venv/".data) || containsSub dir ("/virtualenv/".data) ||
  containsSub dir ("\\venv\\".data) || containsSub dir ("\\virtualenv\\".data) ||
  (containsSub dir ("/.local/share/".data) &&
    (containsSub dir ("/pip/".data) || containsSub dir ("/pipx/".data) ||
     containsSub dir ("/poetry/".data))) ||
  containsSub dir ("pipx".data)

/-- The classification loop of `getPathDirectories`: walk the split PATH
entries in order, skip empty and problematic ones, and append each survivor
to exactly one of the three priority lists (high, normal, low). -/
def classifyDirs (home : List Char) :
    List (List Char) → List (List Char) × List (List Char) × List (List Char)
  | [] => ([], [], [])
  | d :: rest =>
    let r := classifyDirs home rest
    if d = [] then r
    else
      let c := goClean d
      if isProblematicPath c then r
      else if isLanguageSpecificPath c then (r.1, r.2.1, c :: r.2.2)
      else if hasPrefixL home c && !isLanguageSpecificPath c then (c :: r.1, r.2.1, r.2.2)
      else if isPreferredSystemPath c then (c :: r.1, r.2.1, r.2.2)
      else (r.1, c :: r.2.1, r.2.2)

/-- `getPathDirectories` (the `GOOS = linux` branch, so the list separator is
`":"`): empty PATH gives no candidates; otherwise high priority, then normal,
then language-specific last. -/
def getPathDirectories (pathEnv home : List Char) : List (List Char) :=
  if pathEnv = [] then []
  else
    let r := classifyDirs home (splitOnChar ':' pathEnv)
    r.1 ++ r.2.1 ++ r.2.2

/-- The surviving directories: the split PATH entries that are nonempty and,
once cleaned, not problematic, in original order (each listed cleaned). -/
def survivors : List (List Char) → List (List Char)
  | [] => []
  | d :: rest =>
    if d = [] then survivors rest
    else if isProblematicPath (goClean d) then survivors rest
    else goClean d :: survivors rest

/-- Low priority class: the language/package-manager heuristic fires. -/
def dirLow (d : List Char) : Bool := isLanguageSpecificPath d

/-- High priority class: not Low, and under the home directory or a
preferred system path. -/
def dirHigh (home d : List Char) : Bool :=
  !isLanguageSpecificPath d && (hasPrefixL home d || isPreferredSystemPath d)

/-- Normal priority class: everything else. -/
def dirNormal (home d : List Char) : Bool :=
  !dirLow d && !dirHigh home d

/-- The state of one path on disk, as the writability probe distinguishes it:
absent, a regular file, a directory in which the probe's test-file creation
succeeds, or a directory in which it fails. -/
inductive FsNode
  | missing
  | file
  | dirWritable
  | dirReadOnly

deriving DecidableEq

/-- Look up a path's state (paths not listed are absent). -/
def lookupNode (fs : List (List Char × FsNode)) (d : List Char) : FsNode :=
  ((fs.find? (fun kv => decide (kv.1 = d))).map Prod.snd).getD .missing

/-- `isDirectoryWritable`: `os.Stat` must succeed, the entry must be a
directory, and creating (then removing) a uniquely named test file inside it
must succeed — i.e. exactly the `dirWritable` state. -/
def isDirectoryWritable (fs : List (List Char × FsNode)) (dir : List Char) : Bool :=
  match lookupNode fs dir with
  | .dirWritable => true
  | _ => false

/-- `getFallbackDirectories` (the `GOOS = linux` branch):
`~/.local/bin`, `~/bin`, `/usr/local/bin`. -/
def getFallbackDirectories (home : List Char) : List (List Char) :=
  [goJoin2 (goJoin2 home (".local".data)) ("bin".data),
   goJoin2 home ("bin".data),
   "/usr/local/bin".data]

/-- `os.MkdirAll` on a fallback entry: created only when absent; `create`
gives the state the environment leaves the new directory in (normally
`dirWritable`, but creation may also fail or yield an unwritable directory).
-/
def mkdirAllModel (create : List Char → FsNode)
    (fs : List (List Char × FsNode)) (d : List Char) :
    List (List Char × FsNode) :=
  if lookupNode fs d = .missing then (d, create d) :: fs else fs

/-- The fallback phase: for each fallback entry in order, create it if
absent, apply the writability probe, and return the first entry that passes;
when none does, fail with the explicit no-writable-directory error. -/
def fallbackScan (create : List Char → FsNode) :
    List (List Char × FsNode) → List (List Char) → Except (List Char) (List Char)
  | _, [] => .error ("no writable installation directory found".data)
  | fs, d :: rest =>
    let fs' := mkdirAllModel create fs d
    if isDirectoryWritable fs' d then .ok d else fallbackScan create fs' rest

/-- Modelled from the spec: `FindWritableInstallPath` is called from the
release-install workflow and exercised by `TestFindWritableInstallPath`, but
its definition is not among the sources; spec §4.3 steps 5–7 describe it:
return the first candidate from `getPathDirectories` that passes the
writability probe, otherwise probe the platform fallback directories
(creating each if absent), otherwise fail with an explicit error. -/
def findWritableInstallPath (pathEnv home : List Char)
    (fs : List (List Char × FsNode)) (create : List Char → FsNode) :
    Except (List Char) (List Char) :=
  match (getPathDirectories pathEnv home).find? (fun d => isDirectoryWritable fs d) with
  | some d => .ok d
  | none => fallbackScan create fs (getFallbackDirectories home)

theorem chunksLoop_cons (cl cs i idx : Nat) (h : 0 < cs ∧ i < cl) :
    chunksLoop cl cs i idx =
      ⟨i, min (i + cs - 1) (cl - 1), idx⟩ :: chunksLoop cl cs (i + cs) (idx + 1) := by
  rw [chunksLoop, dif_pos h]
  have he : (if cl ≤ i + cs - 1 then cl - 1 else i + cs - 1) = min (i + cs - 1) (cl - 1) := by
    split <;> omega
  rw [he]

theorem chunksLoop_eq (cl cs : Nat) (hcs : 0 < cs) :
    ∀ i idx, chunksLoop cl cs i idx =
      (List.range ((cl - i + cs - 1) / cs)).map
        (fun j => ⟨i + j * cs, min (i + j * cs + cs - 1) (cl - 1), idx + j⟩) := by
  intro i idx
  induction i, idx using chunksLoop.induct cl cs with
  | case1 i idx h ih =>
    obtain ⟨-, hi⟩ := h
    have hn : (cl - i + cs - 1) / cs = (cl - (i + cs) + cs - 1) / cs + 1 := by
      rcases le_or_lt cs (cl - i) with hle | hlt
      · have hrw : cl - (i + cs) + cs - 1 + cs = cl - i + cs - 1 := by omega
        rw [← hrw, Nat.add_div_right _ hcs]
      · have h1 : cl - (i + cs) + cs - 1 = cs - 1 := by omega
        have h2 : (cs - 1) / cs = 0 := Nat.div_eq_of_lt (by omega)
        have h3 : (cl - i + cs - 1) / cs = 1 := by
          have hge : 1 ≤ (cl - i + cs - 1) / cs :=
            (Nat.le_div_iff_mul_le hcs).2 (by omega)
          have hlt2 : (cl - i + cs - 1) / cs < 2 := by
            by_contra hcon
            have := (Nat.le_div_iff_mul_le hcs).1 (Nat.le_of_not_lt hcon)
            omega
          omega
        rw [h1, h2, h3]
    rw [chunksLoop_cons cl cs i idx ⟨hcs, hi⟩, hn, List.range_succ_eq_map,
      List.map_cons, List.map_map, ih]
    congr 1
    · have h0 : i + 0 * cs = i := by ring
      have h1 : min (i + 0 * cs + cs - 1) (cl - 1) = min (i + cs - 1) (cl - 1) := by
        rw [h0]
      rw [h0, Nat.add_zero]
    · apply List.map_congr_left
      intro j _
      simp only [Function.comp_apply]
      have hmul : (j + 1) * cs = j * cs + cs := by ring
      have hs : i + (j + 1) * cs = i + cs + j * cs := by rw [hmul]; ring
      rw [hs]
      congr 1
      omega
  | case2 i idx h =>
    have hz : cl - i = 0 := by omega
    rw [chunksLoop, dif_neg h, hz]
    have hd : (0 + cs - 1) / cs = 0 := Nat.div_eq_of_lt (by omega)
    rw [hd, List.range_zero, List.map_nil]

theorem createChunks_eq (cl cs : Nat) (hcs : 0 < cs) :
    createChunks cl cs =
      (List.range ((cl + cs - 1) / cs)).map
        (fun j => ⟨j * cs, min (j * cs + cs - 1) (cl - 1), j⟩) := by
  have h := chunksLoop_eq cl cs hcs 0 0
  rw [Nat.sub_zero] at h
  rw [createChunks, h]
  apply List.map_congr_left
  intro j _
  have h1 : 0 + j * cs = j * cs := by omega
  rw [h1, Nat.zero_add]

theorem ceil_div_mul_lower (cl cs j : Nat) (hcs : 0 < cs)
    (hj : j < (cl + cs - 1) / cs) : j * cs + 1 ≤ cl := by
  have h := (Nat.le_div_iff_mul_le hcs).1 (Nat.succ_le_of_lt hj)
  rw [Nat.succ_mul] at h
  omega

theorem ceil_div_mul_upper (cl cs : Nat) (hcs : 0 < cs) :
    cl ≤ ((cl + cs - 1) / cs) * cs := by
  have hdm := Nat.div_add_mod (cl + cs - 1) cs
  have hm := Nat.mod_lt (cl + cs - 1) hcs
  have hc : cs * ((cl + cs - 1) / cs) = ((cl + cs - 1) / cs) * cs := Nat.mul_comm _ _
  omega

/-- C2: for every `contentLength > 0` and `chunkSize > 0`, `createChunks`
returns exactly `⌈contentLength / chunkSize⌉` chunks; chunk `j` has `Index = j`
and covers `[j*cs, min ((j+1)*cs - 1) (contentLength-1)]`; the chunks are
nonempty ranges, contiguous, non-overlapping, start at offset `0` and end at
`contentLength - 1` (hence their union covers exactly
`[0, contentLength-1]`). -/
theorem createChunks_spec (cl cs : Nat) (hcl : 0 < cl) (hcs : 0 < cs) :
    (createChunks cl cs).length = (cl + cs - 1) / cs ∧
    (∀ j (hj : j < (createChunks cl cs).length),
      ((createChunks cl cs).get ⟨j, hj⟩).Start = j * cs ∧
      ((createChunks cl cs).get ⟨j, hj⟩).End = min ((j + 1) * cs - 1) (cl - 1) ∧
      ((createChunks cl cs).get ⟨j, hj⟩).Index = j ∧
      ((createChunks cl cs).get ⟨j, hj⟩).Start ≤ ((createChunks cl cs).get ⟨j, hj⟩).End) ∧
    (∀ j (hj : j + 1 < (createChunks cl cs).length),
      ((createChunks cl cs).get ⟨j + 1, hj⟩).Start
        = ((createChunks cl cs).get ⟨j, by omega⟩).End + 1) ∧
    (∀ j k (hj : j < (createChunks cl cs).length) (hk : k < (createChunks cl cs).length),
      j < k →
      ((createChunks cl cs).get ⟨j, hj⟩).End < ((createChunks cl cs).get ⟨k, hk⟩).Start) ∧
    (∃ h0 : 0 < (createChunks cl cs).length, ((createChunks cl cs).get ⟨0, h0⟩).Start = 0) ∧
    ((createChunks cl cs).getLast?.map Chunk.End = some (cl - 1)) := by
  have hEq := createChunks_eq cl cs hcs
  have hLen : (createChunks cl cs).length = (cl + cs - 1) / cs := by
    rw [hEq, List.length_map, List.length_range]
  have hGet : ∀ j (hj : j < (createChunks cl cs).length),
      (createChunks cl cs).get ⟨j, hj⟩ =
        ⟨j * cs, min (j * cs + cs - 1) (cl - 1), j⟩ := by
    intro j hj
    rw [List.get_eq_getElem, List.getElem_of_eq hEq, List.getElem_map,
      List.getElem_range]
  have hPos : 0 < (cl + cs - 1) / cs := by
    have h1 : 1 ≤ (cl + cs - 1) / cs := (Nat.le_div_iff_mul_le hcs).2 (by omega)
    omega
  refine ⟨hLen, ?_, ?_, ?_, ?_, ?_⟩
  · intro j hj
    have hj' : j < (cl + cs - 1) / cs := by omega
    have hlow := ceil_div_mul_lower cl cs j hcs hj'
    rw [hGet j hj]
    refine ⟨rfl, ?_, rfl, ?_⟩
    · have : (j + 1) * cs = j * cs + cs := Nat.succ_mul j cs
      rw [this]
    · simp only
      omega
  · intro j hj
    have hj' : j + 1 < (cl + cs - 1) / cs := by omega
    have hlow := ceil_div_mul_lower cl cs (j + 1) hcs hj'
    rw [Nat.succ_mul] at hlow
    rw [hGet (j + 1) hj, hGet j (by omega)]
    simp only
    rw [Nat.succ_mul]
    omega
  · intro j k hj hk hjk
    rw [hGet j hj, hGet k hk]
    simp only
    have hmono : (j + 1) * cs ≤ k * cs := Nat.mul_le_mul_right cs (by omega)
    rw [Nat.succ_mul] at hmono
    omega
  · refine ⟨by omega, ?_⟩
    rw [hGet 0 (by omega)]
    simp
  · have hne : createChunks cl cs ≠ [] := by
      intro hcon
      rw [hcon] at hLen
      simp only [List.length_nil] at hLen
      omega
    rw [List.getLast?_eq_getLast_of_ne_nil hne, List.getLast_eq_getElem,
      List.getElem_of_eq hEq, List.getElem_map, List.getElem_range,
      Option.map_some']
    have hup := ceil_div_mul_upper cl cs hcs
    have hstep : ((cl + cs - 1) / cs - 1) * cs + cs = ((cl + cs - 1) / cs) * cs := by
      have h2 : (cl + cs - 1) / cs - 1 + 1 = (cl + cs - 1) / cs := by omega
      calc ((cl + cs - 1) / cs - 1) * cs + cs
          = ((cl + cs - 1) / cs - 1 + 1) * cs := (Nat.succ_mul _ _).symm
        _ = ((cl + cs - 1) / cs) * cs := by rw [h2]
    have hL : (createChunks cl cs).length - 1 = (cl + cs - 1) / cs - 1 := by omega
    rw [hL]
    congr 1
    simp only
    omega

/-- Witness for `createChunks_spec` at `contentLength = 5`, `chunkSize = 2`. -/
theorem createChunks_spec_witness :
    0 < 5 ∧ 0 < 2 ∧ (createChunks 5 2).length = (5 + 2 - 1) / 2 :=
  ⟨by decide, by decide, (createChunks_spec 5 2 (by decide) (by decide)).1⟩

theorem extractZipFile_ok_paths (dest : List Char) (flat : Bool) (e : ZipEntry)
    (acts : List FsAction) (h : extractZipFile dest flat e = .ok acts) :
    ∀ a ∈ acts, hasPrefixL (goClean dest ++ ['/']) a.path = true := by
  intro a ha
  by_cases h1 : flat = true ∧ postFlattenName flat e.name = []
  · rw [extractZipFile] at h
    simp only [if_pos h1, Except.ok.injEq] at h
    subst h
    simp at ha
  · by_cases h2 : hasPrefixL (goClean dest ++ ['/'])
        (goJoin2 dest (postFlattenName flat e.name)) = true
    · rcases hk : e.kind with _ | content <;>
        · rw [extractZipFile] at h
          simp only [if_neg h1, h2, not_true_eq_false, if_neg, hk,
            Except.ok.injEq, Bool.not_true, if_false] at h
          subst h
          simp only [List.mem_singleton] at ha
          subst ha
          simpa [FsAction.path] using h2
    · rw [extractZipFile] at h
      simp only [if_neg h1] at h
      rw [if_pos (by simpa using h2)] at h
      exact absurd h (by simp)

theorem extractTarFile_ok_paths (dest : List Char) (flat : Bool) (e : TarEntry)
    (acts : List FsAction) (h : extractTarFile dest flat e = .ok acts) :
    ∀ a ∈ acts, hasPrefixL (goClean dest ++ ['/']) a.path = true := by
  intro a ha
  by_cases h1 : flat = true ∧ postFlattenName flat e.name = []
  · rw [extractTarFile] at h
    simp only [if_pos h1, Except.ok.injEq] at h
    subst h
    simp at ha
  · by_cases h2 : hasPrefixL (goClean dest ++ ['/'])
        (goJoin2 dest (postFlattenName flat e.name)) = true
    · rcases hk : e.kind with _ | content | _
      · rw [extractTarFile] at h
        simp only [if_neg h1, h2, not_true_eq_false, if_neg, hk,
          Except.ok.injEq, Bool.not_true, if_false] at h
        subst h
        simp only [List.mem_singleton] at ha
        subst ha
        simpa [FsAction.path] using h2
      · rw [extractTarFile] at h
        simp only [if_neg h1, h2, not_true_eq_false, if_neg, hk,
          Except.ok.injEq, Bool.not_true, if_false] at h
        subst h
        simp only [List.mem_singleton] at ha
        subst ha
        simpa [FsAction.path] using h2
      · rw [extractTarFile] at h
        simp only [if_neg h1, h2, not_true_eq_false, if_neg, hk,
          Except.ok.injEq, Bool.not_true, if_false] at h
        subst h
        simp at ha
    · rw [extractTarFile] at h
      simp only [if_neg h1] at h
      rw [if_pos (by simpa using h2)] at h
      exact absurd h (by simp)

theorem extractZipLoop_paths (dest : List Char) (flat : Bool) :
    ∀ entries, ∀ a ∈ (extractZipLoop dest flat entries).1,
      hasPrefixL (goClean dest ++ ['/']) a.path = true := by
  intro entries
  induction entries with
  | nil => intro a ha; simp [extractZipLoop] at ha
  | cons e rest ih =>
    intro a ha
    rcases hE : extractZipFile dest flat e with m | acts
    · simp only [extractZipLoop, hE] at ha
      simp at ha
    · simp only [extractZipLoop, hE] at ha
      rcases List.mem_append.1 ha with hmem | hmem
      · exact extractZipFile_ok_paths dest flat e acts hE a hmem
      · exact ih a hmem

theorem extractTarLoop_paths (dest : List Char) (flat : Bool) :
    ∀ entries, ∀ a ∈ (extractTarLoop dest flat entries).1,
      hasPrefixL (goClean dest ++ ['/']) a.path = true := by
  intro entries
  induction entries with
  | nil => intro a ha; simp [extractTarLoop] at ha
  | cons e rest ih =>
    intro a ha
    rcases hE : extractTarFile dest flat e with m | acts
    · simp only [extractTarLoop, hE] at ha
      simp at ha
    · simp only [extractTarLoop, hE] at ha
      rcases List.mem_append.1 ha with hmem | hmem
      · exact extractTarFile_ok_paths dest flat e acts hE a hmem
      · exact ih a hmem

theorem extractZipLoop_abort (dest : List Char) (flat : Bool) :
    ∀ pre (e : ZipEntry) post,
      (∀ x ∈ pre, (extractZipFile dest flat x).isOk = true) →
      extractZipFile dest flat e = .error e.name →
      extractZipLoop dest flat (pre ++ e :: post)
        = ((extractZipLoop dest flat pre).1, some e.name) := by
  intro pre
  induction pre with
  | nil =>
    intro e post _ hE
    simp [extractZipLoop, hE]
  | cons p ps ih =>
    intro e post hpre hE
    have hp := hpre p (by simp)
    rcases hQ : extractZipFile dest flat p with m | acts
    · rw [hQ] at hp
      simp [Except.isOk, Except.toBool] at hp
    · simp only [List.cons_append, extractZipLoop, hQ, List.append_eq]
      rw [ih e post (fun x hx => hpre x (by simp [hx])) hE]

theorem extractTarLoop_abort (dest : List Char) (flat : Bool) :
    ∀ pre (e : TarEntry) post,
      (∀ x ∈ pre, (extractTarFile dest flat x).isOk = true) →
      extractTarFile dest flat e = .error e.name →
      extractTarLoop dest flat (pre ++ e :: post)
        = ((extractTarLoop dest flat pre).1, some e.name) := by
  intro pre
  induction pre with
  | nil =>
    intro e post _ hE
    simp [extractTarLoop, hE]
  | cons p ps ih =>
    intro e post hpre hE
    have hp := hpre p (by simp)
    rcases hQ : extractTarFile dest flat p with m | acts
    · rw [hQ] at hp
      simp [Except.isOk, Except.toBool] at hp
    · simp only [List.cons_append, extractTarLoop, hQ, List.append_eq]
      rw [ih e post (fun x hx => hpre x (by simp [hx])) hE]

theorem extractZipFile_error_iff (dest : List Char) (flat : Bool) (e : ZipEntry)
    (hskip : ¬ (flat = true ∧ postFlattenName flat e.name = [])) :
    (extractZipFile dest flat e = .error e.name ↔
      hasPrefixL (goClean dest ++ ['/']) (goJoin2 dest (postFlattenName flat e.name))
        = false) := by
  rw [extractZipFile]
  simp only [if_neg hskip]
  by_cases h2 : hasPrefixL (goClean dest ++ ['/'])
      (goJoin2 dest (postFlattenName flat e.name)) = true
  · rw [if_neg (by simpa using h2)]
    rcases e.kind with _ | content <;> simp [h2]
  · rw [if_pos (by simpa using h2)]
    simpa using h2

theorem extractTarFile_error_iff (dest : List Char) (flat : Bool) (e : TarEntry)
    (hskip : ¬ (flat = true ∧ postFlattenName flat e.name = [])) :
    (extractTarFile dest flat e = .error e.name ↔
      hasPrefixL (goClean dest ++ ['/']) (goJoin2 dest (postFlattenName flat e.name))
        = false) := by
  rw [extractTarFile]
  simp only [if_neg hskip]
  by_cases h2 : hasPrefixL (goClean dest ++ ['/'])
      (goJoin2 dest (postFlattenName flat e.name)) = true
  · rw [if_neg (by simpa using h2)]
    rcases e.kind with _ | content | _ <;> simp [h2]
  · rw [if_pos (by simpa using h2)]
    simpa using h2

theorem extractZipFile_skip (dest : List Char) (flat : Bool) (e : ZipEntry)
    (hskip : flat = true ∧ postFlattenName flat e.name = []) :
    extractZipFile dest flat e = .ok [] := by
  rw [extractZipFile]
  simp only [if_pos hskip]

theorem extractTarFile_skip (dest : List Char) (flat : Bool) (e : TarEntry)
    (hskip : flat = true ∧ postFlattenName flat e.name = []) :
    extractTarFile dest flat e = .ok [] := by
  rw [extractTarFile]
  simp only [if_pos hskip]

theorem splitOnChar_no_sep (sep : Char) (l : List Char) (h : sep ∉ l) :
    splitOnChar sep l = [l] := by
  induction l with
  | nil => rfl
  | cons c cs ih =>
    have hc : ¬ c = sep := fun hcon => h (by simp [hcon])
    have hcs : sep ∉ cs := fun hcon => h (by simp [hcon])
    rw [splitOnChar, if_neg hc, ih hcs]

theorem stripTopLevel_no_slash (name : List Char) (h : '/' ∉ name) :
    stripTopLevel name = [] := by
  rw [stripTopLevel, splitOnChar_no_sep '/' name h]
  simp

/-- C1: for every archive entry, ZIP and TAR alike, flattening is applied to
the stored name first and the candidate destination path — the destination
root joined with the post-flatten relative name — is checked to start with
the cleaned destination root plus the path separator.  First pair of
conjuncts: a non-skipped entry errors exactly when this check on the
post-flatten path fails, and the error carries the entry's stored name.
Second pair: every file-system action an extraction run performs has a path
that passes the check, so nothing is ever created outside the destination
root.  Third pair: the first failing entry aborts the whole run immediately —
the run returns the error and performs exactly the actions of the preceding,
successful entries, so no file or directory is created for the failing entry
or for any later entry. -/
theorem extract_slip_check_spec :
    (∀ (dest : List Char) (flat : Bool) (e : ZipEntry),
      ¬ (flat = true ∧ postFlattenName flat e.name = []) →
      (extractZipFile dest flat e = .error e.name ↔
        hasPrefixL (goClean dest ++ ['/'])
          (goJoin2 dest (postFlattenName flat e.name)) = false)) ∧
    (∀ (dest : List Char) (flat : Bool) (e : TarEntry),
      ¬ (flat = true ∧ postFlattenName flat e.name = []) →
      (extractTarFile dest flat e = .error e.name ↔
        hasPrefixL (goClean dest ++ ['/'])
          (goJoin2 dest (postFlattenName flat e.name)) = false)) ∧
    (∀ (dest : List Char) (flat : Bool) (entries : List ZipEntry),
      ∀ a ∈ (extractZipLoop dest flat entries).1,
        hasPrefixL (goClean dest ++ ['/']) a.path = true) ∧
    (∀ (dest : List Char) (flat : Bool) (entries : List TarEntry),
      ∀ a ∈ (extractTarLoop dest flat entries).1,
        hasPrefixL (goClean dest ++ ['/']) a.path = true) ∧
    (∀ (dest : List Char) (flat : Bool) (pre : List ZipEntry) (e : ZipEntry) post,
      (∀ x ∈ pre, (extractZipFile dest flat x).isOk = true) →
      extractZipFile dest flat e = .error e.name →
      extractZipLoop dest flat (pre ++ e :: post)
        = ((extractZipLoop dest flat pre).1, some e.name)) ∧
    (∀ (dest : List Char) (flat : Bool) (pre : List TarEntry) (e : TarEntry) post,
      (∀ x ∈ pre, (extractTarFile dest flat x).isOk = true) →
      extractTarFile dest flat e = .error e.name →
      extractTarLoop dest flat (pre ++ e :: post)
        = ((extractTarLoop dest flat pre).1, some e.name)) :=
  ⟨extractZipFile_error_iff, extractTarFile_error_iff,
   extractZipLoop_paths, extractTarLoop_paths,
   extractZipLoop_abort, extractTarLoop_abort⟩

/-- Witness for `extract_slip_check_spec`: a `../evil` entry behind a good
entry is rejected with the stored name, the run aborts, and only the good
entry's action is performed. -/
theorem extract_slip_check_spec_witness :
    (¬ (false = true ∧
        postFlattenName false (ZipEntry.mk "../evil".data (.reg [2])).name = []) ∧
      (extractZipFile "/out".data false ⟨"../evil".data, .reg [2]⟩
          = .error ("../evil".data) ↔
        hasPrefixL (goClean "/out".data ++ ['/'])
          (goJoin2 "/out".data (postFlattenName false "../evil".data)) = false)) ∧
    extractZipLoop "/out".data false
        ([⟨"a.txt".data, .reg [1]⟩] ++ ⟨"../evil".data, .reg [2]⟩ :: [])
      = ((extractZipLoop "/out".data false [⟨"a.txt".data, .reg [1]⟩]).1,
          some ("../evil".data)) :=
  ⟨⟨by decide,
    extract_slip_check_spec.1 "/out".data false ⟨"../evil".data, .reg [2]⟩ (by decide)⟩,
   extract_slip_check_spec.2.2.2.2.1 "/out".data false
     [⟨"a.txt".data, .reg [1]⟩] ⟨"../evil".data, .reg [2]⟩ []
     (by decide) (by decide)⟩

/-- C10: whenever flattening is in effect — the explicit flatten flag, or
auto-flatten with a single detected top-level directory — an archive entry
whose stored name contains no `'/'` separator (including a regular file
stored at the archive root) strips to the empty name, which is the skip
marker: the per-entry extractor returns `ok []`, so the entry is silently
skipped and produces no output at all. -/
theorem flatten_skips_slashless_entries
    (flatten autoFlatten : Bool) (topDirs : List (List Char))
    (hflat : shouldFlatten flatten autoFlatten topDirs = true) :
    (∀ (dest : List Char) (e : ZipEntry), '/' ∉ e.name →
      stripTopLevel e.name = [] ∧
      extractZipFile dest (shouldFlatten flatten autoFlatten topDirs) e = .ok []) ∧
    (∀ (dest : List Char) (e : TarEntry), '/' ∉ e.name →
      stripTopLevel e.name = [] ∧
      extractTarFile dest (shouldFlatten flatten autoFlatten topDirs) e = .ok []) := by
  constructor
  · intro dest e hs
    have hstrip := stripTopLevel_no_slash e.name hs
    refine ⟨hstrip, ?_⟩
    rw [hflat]
    exact extractZipFile_skip dest true e ⟨rfl, by simp [postFlattenName, hstrip]⟩
  · intro dest e hs
    have hstrip := stripTopLevel_no_slash e.name hs
    refine ⟨hstrip, ?_⟩
    rw [hflat]
    exact extractTarFile_skip dest true e ⟨rfl, by simp [postFlattenName, hstrip]⟩

/-- Witness for `flatten_skips_slashless_entries`: with the explicit flatten
flag set, a root-level regular file `bin` is skipped entirely. -/
theorem flatten_skips_slashless_entries_witness :
    shouldFlatten true false [] = true ∧
    ('/' ∉ ("bin".data : List Char)) ∧
    extractZipFile "/d".data (shouldFlatten true false []) ⟨"bin".data, .reg [7]⟩
      = .ok [] :=
  ⟨by decide, by decide,
   ((flatten_skips_slashless_entries true false [] (by decide)).1
     "/d".data ⟨"bin".data, .reg [7]⟩ (by decide)).2⟩

theorem runWorkers_fold_length (contents : List (List Nat)) :
    ∀ (order : List Nat) (slots : List (Option (List Nat))),
      (order.foldl (fun sl i => sl.set i (some (contents.getD i []))) slots).length
        = slots.length := by
  intro order
  induction order with
  | nil => intro slots; rfl
  | cons a rest ih =>
    intro slots
    rw [List.foldl_cons, ih, List.length_set]

theorem runWorkers_fold_getq (contents : List (List Nat)) :
    ∀ (order : List Nat) (slots : List (Option (List Nat))) (j : Nat),
      (order.foldl (fun sl i => sl.set i (some (contents.getD i []))) slots)[j]?
        = if j ∈ order ∧ j < slots.length then some (some (contents.getD j []))
          else slots[j]? := by
  intro order
  induction order with
  | nil =>
    intro slots j
    simp
  | cons a rest ih =>
    intro slots j
    rw [List.foldl_cons, ih, List.length_set]
    by_cases hin : j ∈ rest ∧ j < slots.length
    · rw [if_pos hin, if_pos ⟨by simp [hin.1], hin.2⟩]
    · rw [if_neg hin, List.getElem?_set]
      by_cases hja : a = j
      · subst hja
        by_cases hlen : a < slots.length
        · rw [if_pos rfl, if_pos hlen, if_pos ⟨by simp, hlen⟩]
        · rw [if_pos rfl, if_neg hlen, if_neg (fun hcon => hlen hcon.2),
            List.getElem?_eq_none (by omega)]
      · rw [if_neg hja, if_neg ?hneg]
        case hneg =>
          rintro ⟨hmem, hlt⟩
          rcases List.mem_cons.1 hmem with hcon | hcon
          · exact hja hcon.symm
          · exact hin ⟨hcon, hlt⟩

theorem runWorkers_eq_map_some (contents : List (List Nat)) (order : List Nat)
    (hmem : ∀ j < contents.length, j ∈ order) :
    runWorkers contents order = contents.map some := by
  apply List.ext_getElem?
  intro n
  rw [runWorkers, runWorkers_fold_getq, List.length_replicate,
    List.getElem?_map]
  by_cases hn : n < contents.length
  · rw [if_pos ⟨hmem n hn, hn⟩, List.getElem?_eq_getElem hn]
    simp [List.getD_eq_getElem?_getD, List.getElem?_eq_getElem hn]
  · rw [if_neg (fun hcon => hn hcon.2), List.getElem?_replicate, if_neg hn,
      List.getElem?_eq_none (by omega)]
    simp

theorem mergeChunks_map_some (contents : List (List Nat)) :
    mergeChunks (contents.map some) = contents.flatten := by
  induction contents with
  | nil => rfl
  | cons c cs ih =>
    show c ++ mergeChunks (cs.map some) = (c :: cs).flatten
    rw [ih, List.flatten_cons]

/-- C3: each chunk worker stores its result in the slot of its own index, and
`mergeChunks` concatenates the slots in index order 0..n-1; therefore, for
every assignment of chunk contents and every completion order of the workers
(any permutation of the chunk indices), the merged output equals the
concatenation of chunk 0's bytes, then chunk 1's bytes, and so on. -/
theorem mergeChunks_index_order (contents : List (List Nat)) (order : List Nat)
    (hperm : order.Perm (List.range contents.length)) :
    mergeChunks (runWorkers contents order) = contents.flatten := by
  have hmem : ∀ j < contents.length, j ∈ order := fun j hj =>
    hperm.mem_iff.2 (List.mem_range.2 hj)
  rw [runWorkers_eq_map_some contents order hmem, mergeChunks_map_some]

/-- Witness for `mergeChunks_index_order`: workers completing in the order
2, 0, 1 still merge to the in-order concatenation. -/
theorem mergeChunks_index_order_witness :
    ([2, 0, 1] : List Nat).Perm (List.range ([[1], [2, 3], [4]] : List (List Nat)).length) ∧
    mergeChunks (runWorkers [[1], [2, 3], [4]] [2, 0, 1])
      = ([[1], [2, 3], [4]] : List (List Nat)).flatten :=
  ⟨by decide, mergeChunks_index_order [[1], [2, 3], [4]] [2, 0, 1] (by decide)⟩

theorem applyActions_cons (fs : FS) (a : FsAction) (as : List FsAction) :
    applyActions fs (a :: as) = applyActions (applyAction fs a) as := rfl

theorem readFile_applyActions_no_write (p : List Char) :
    ∀ (as : List FsAction) (fs : FS), (∀ a ∈ as, isWriteTo a p = false) →
      readFile (applyActions fs as) p = readFile fs p := by
  intro as
  induction as with
  | nil => intro fs _; rfl
  | cons a rest ih =>
    intro fs hno
    rw [applyActions_cons, ih _ (fun x hx => hno x (by simp [hx]))]
    rcases a with q | ⟨q, c⟩
    · rfl
    · have hq : ¬ q = p := by
        have := hno (.write q c) (by simp)
        simpa [isWriteTo] using this
      rw [readFile, readFile]
      simp only [applyAction, List.find?_cons]
      rw [decide_eq_false hq]

theorem readFile_applyActions_written (p : List Char) :
    ∀ (as : List FsAction), (∃ a ∈ as, isWriteTo a p = true) →
      ∀ (fs fs' : FS),
        readFile (applyActions fs as) p = readFile (applyActions fs' as) p := by
  intro as
  induction as with
  | nil => rintro ⟨a, ha, -⟩; simp at ha
  | cons a rest ih =>
    rintro ⟨b, hb, hw⟩ fs fs'
    by_cases hrest : ∃ x ∈ rest, isWriteTo x p = true
    · rw [applyActions_cons, applyActions_cons]
      exact ih hrest _ _
    · have hbin : b = a := by
        rcases List.mem_cons.1 hb with h | h
        · exact h
        · exact absurd ⟨b, h, hw⟩ hrest
      subst hbin
      have hnone : ∀ x ∈ rest, isWriteTo x p = false := by
        intro x hx
        by_contra hcon
        exact hrest ⟨x, hx, by revert hcon; cases isWriteTo x p <;> simp⟩
      rw [applyActions_cons, applyActions_cons,
        readFile_applyActions_no_write p rest _ hnone,
        readFile_applyActions_no_write p rest _ hnone]
      rcases b with q | ⟨q, c⟩
      · simp [isWriteTo] at hw
      · have hq : q = p := by simpa [isWriteTo] using hw
        subst hq
        rw [readFile, readFile]
        simp only [applyAction, List.find?_cons, decide_eq_true rfl]
        rfl

theorem readFile_applyActions_idem (as : List FsAction) (fs : FS) (p : List Char) :
    readFile (applyActions (applyActions fs as) as) p
      = readFile (applyActions fs as) p := by
  by_cases hw : ∃ a ∈ as, isWriteTo a p = true
  · exact readFile_applyActions_written p as hw _ _
  · have hno : ∀ a ∈ as, isWriteTo a p = false := by
      intro a ha
      by_contra hcon
      exact hw ⟨a, ha, by revert hcon; cases isWriteTo a p <;> simp⟩
    rw [readFile_applyActions_no_write p as _ hno]

/-- C8: extraction is idempotent on file contents.  An extraction run is a
deterministic action list (it does not depend on the file-system state), and
every file write truncates; applying the same ZIP or TAR run twice leaves
every path with exactly the content it had after the first run. -/
theorem extract_rerun_idempotent (dest : List Char) (flatten autoFlatten : Bool)
    (fs : FS) (p : List Char) :
    (∀ (entries : List ZipEntry),
      readFile
        (applyActions (applyActions fs (extractZip dest flatten autoFlatten entries).1)
          (extractZip dest flatten autoFlatten entries).1) p
      = readFile (applyActions fs (extractZip dest flatten autoFlatten entries).1) p) ∧
    (∀ (entries : List TarEntry),
      readFile
        (applyActions (applyActions fs (extractTarArchive dest flatten autoFlatten entries).1)
          (extractTarArchive dest flatten autoFlatten entries).1) p
      = readFile (applyActions fs (extractTarArchive dest flatten autoFlatten entries).1) p) :=
  ⟨fun _ => readFile_applyActions_idem _ fs p,
   fun _ => readFile_applyActions_idem _ fs p⟩

theorem splitOnChar_ne_nil (sep : Char) (l : List Char) :
    splitOnChar sep l ≠ [] := by
  cases l with
  | nil => simp [splitOnChar]
  | cons c cs =>
    rw [splitOnChar]
    by_cases hc : c = sep
    · simp [hc]
    · rw [if_neg hc]
      rcases h : splitOnChar sep cs with _ | ⟨p, ps⟩ <;> simp

theorem splitOnChar_append_sep (sep : Char) (seg rest : List Char)
    (h : sep ∉ seg) :
    splitOnChar sep (seg ++ sep :: rest) = seg :: splitOnChar sep rest := by
  induction seg with
  | nil => simp [splitOnChar]
  | cons c cs ih =>
    have hc : ¬ c = sep := fun hcon => h (by simp [hcon])
    have hcs : sep ∉ cs := fun hcon => h (by simp [hcon])
    rw [List.cons_append, splitOnChar, if_neg hc, ih hcs]

theorem joinSlash_splitOnChar (l : List Char) :
    joinSlash (splitOnChar '/' l) = l := by
  induction l with
  | nil => rfl
  | cons c cs ih =>
    by_cases hc : c = '/'
    · subst hc
      rw [splitOnChar, if_pos rfl]
      rcases hsp : splitOnChar '/' cs with _ | ⟨p, ps⟩
      · exact absurd hsp (splitOnChar_ne_nil _ _)
      · rw [hsp] at ih
        show [] ++ '/' :: joinSlash (p :: ps) = '/' :: cs
        rw [List.nil_append, ih]
    · rw [splitOnChar, if_neg hc]
      rcases hsp : splitOnChar '/' cs with _ | ⟨p, ps⟩
      · exact absurd hsp (splitOnChar_ne_nil _ _)
      · rw [hsp] at ih
        cases ps with
        | nil =>
          show c :: p = c :: cs
          rw [show joinSlash [p] = p from rfl] at ih
          rw [ih]
        | cons q qs =>
          show (c :: p) ++ '/' :: joinSlash (q :: qs) = c :: cs
          rw [show joinSlash (p :: q :: qs) = p ++ '/' :: joinSlash (q :: qs) from rfl]
            at ih
          rw [List.cons_append, ih]

theorem stripTopLevel_strips_first (seg rest : List Char) (h : '/' ∉ seg) :
    stripTopLevel (seg ++ '/' :: rest) = rest := by
  rw [stripTopLevel, splitOnChar_append_sep '/' seg rest h]
  have hlen : 1 < (seg :: splitOnChar '/' rest).length := by
    have := splitOnChar_ne_nil '/' rest
    cases hsp : splitOnChar '/' rest with
    | nil => exact absurd hsp this
    | cons p ps => simp
  rw [if_pos hlen]
  show joinSlash (splitOnChar '/' rest) = rest
  exact joinSlash_splitOnChar rest

theorem detectLoop_mem (x : List Char) :
    ∀ (names : List (List Char)) (acc : List (List Char)),
      (x ∈ detectLoop acc names ↔
        x ∈ acc ∨ (x ≠ [] ∧ ∃ n ∈ names, firstSeg n = x)) := by
  intro names
  induction names with
  | nil => intro acc; simp [detectLoop]
  | cons n rest ih =>
    intro acc
    rw [detectLoop]
    by_cases hcond : firstSeg n ≠ [] ∧ firstSeg n ∉ acc
    · rw [if_pos hcond, ih]
      constructor
      · rintro (hx | ⟨hne, m, hm, hfs⟩)
        · rcases List.mem_append.1 hx with hx | hx
          · exact Or.inl hx
          · simp only [List.mem_singleton] at hx
            subst hx
            exact Or.inr ⟨hcond.1, n, by simp, rfl⟩
        · exact Or.inr ⟨hne, m, by simp [hm], hfs⟩
      · rintro (hx | ⟨hne, m, hm, hfs⟩)
        · exact Or.inl (List.mem_append.2 (Or.inl hx))
        · rcases List.mem_cons.1 hm with hm | hm
          · subst hm
            exact Or.inl (List.mem_append.2 (Or.inr (by simp [hfs])))
          · exact Or.inr ⟨hne, m, hm, hfs⟩
    · rw [if_neg hcond, ih]
      rcases not_and_or.1 hcond with hemp | hmemacc
      · rw [not_not] at hemp
        constructor
        · rintro (hx | ⟨hne, m, hm, hfs⟩)
          · exact Or.inl hx
          · exact Or.inr ⟨hne, m, by simp [hm], hfs⟩
        · rintro (hx | ⟨hne, m, hm, hfs⟩)
          · exact Or.inl hx
          · rcases List.mem_cons.1 hm with hm | hm
            · subst hm
              rw [hemp] at hfs
              exact absurd hfs.symm hne
            · exact Or.inr ⟨hne, m, hm, hfs⟩
      · rw [not_not] at hmemacc
        constructor
        · rintro (hx | ⟨hne, m, hm, hfs⟩)
          · exact Or.inl hx
          · exact Or.inr ⟨hne, m, by simp [hm], hfs⟩
        · rintro (hx | ⟨hne, m, hm, hfs⟩)
          · exact Or.inl hx
          · rcases List.mem_cons.1 hm with hm | hm
            · subst hm
              rw [hfs] at hmemacc
              exact Or.inl hmemacc
            · exact Or.inr ⟨hne, m, hm, hfs⟩

theorem detectLoop_nodup :
    ∀ (names : List (List Char)) (acc : List (List Char)),
      acc.Nodup → (detectLoop acc names).Nodup := by
  intro names
  induction names with
  | nil => intro acc h; exact h
  | cons n rest ih =>
    intro acc h
    rw [detectLoop]
    by_cases hcond : firstSeg n ≠ [] ∧ firstSeg n ∉ acc
    · rw [if_pos hcond]
      refine ih _ ?_
      rw [List.nodup_append]
      exact ⟨h, List.nodup_singleton _, by
        intro a ha hb
        simp only [List.mem_singleton] at hb
        subst hb
        exact hcond.2 ha⟩
    · rw [if_neg hcond]
      exact ih _ h

theorem shouldFlatten_false_true (tds : List (List Char)) :
    (shouldFlatten false true tds = true ↔ tds.length = 1) := by
  by_cases h : tds.length = 1
  · simp [shouldFlatten, h]
  · simp [shouldFlatten, h]

theorem detect_length_one_iff (names : List (List Char)) :
    ((detectTopLevelDirs names).length = 1 ↔
      ∃ s, s ≠ [] ∧ (∃ n ∈ names, firstSeg n = s) ∧
        (∀ n ∈ names, firstSeg n = s ∨ firstSeg n = [])) := by
  have hmem : ∀ x, x ∈ detectTopLevelDirs names ↔
      x ∈ ([] : List (List Char)) ∨ (x ≠ [] ∧ ∃ n ∈ names, firstSeg n = x) :=
    fun x => detectLoop_mem x names []
  have hnd : (detectTopLevelDirs names).Nodup := detectLoop_nodup names [] List.nodup_nil
  constructor
  · intro hlen
    rcases List.length_eq_one.1 hlen with ⟨s, hs⟩
    have hsmem : s ∈ detectTopLevelDirs names := by rw [hs]; simp
    rcases (hmem s).1 hsmem with hx | ⟨hne, hex⟩
    · simp at hx
    · refine ⟨s, hne, hex, ?_⟩
      intro n hn
      by_cases hfe : firstSeg n = []
      · exact Or.inr hfe
      · left
        have hin : firstSeg n ∈ detectTopLevelDirs names :=
          (hmem _).2 (Or.inr ⟨hfe, n, hn, rfl⟩)
        rw [hs] at hin
        simpa using hin
  · rintro ⟨s, hne, ⟨n0, hn0, hf0⟩, hall⟩
    have hsmem : s ∈ detectTopLevelDirs names :=
      (hmem s).2 (Or.inr ⟨hne, n0, hn0, hf0⟩)
    have hsub : ∀ x ∈ detectTopLevelDirs names, x = s := by
      intro x hx
      rcases (hmem x).1 hx with hx0 | ⟨hxne, m, hm, hfm⟩
      · simp at hx0
      · rcases hall m hm with h | h
        · rw [← hfm, h]
        · rw [h] at hfm
          exact absurd hfm.symm hxne
    rcases hD : detectTopLevelDirs names with _ | ⟨a, rest⟩
    · rw [hD] at hsmem
      simp at hsmem
    · rcases rest with _ | ⟨b, rest2⟩
      · simp
      · exfalso
        have ha := hsub a (by rw [hD]; simp)
        have hb := hsub b (by rw [hD]; simp)
        rw [hD] at hnd
        have hab : a ≠ b := by
          have hnc := List.nodup_cons.1 hnd
          intro hcon
          exact hnc.1 (by simp [hcon])
        exact hab (ha.trans hb.symm)

/-- Counterexample to C4 as stated: over the entries `a/x` and `/b` the set
of distinct first slash-delimited segments has two elements (`"a"` and `""`),
yet `shouldFlatten` in auto mode returns `true`, because the detection pass
ignores an empty first segment: auto-flatten does not test "exactly one
distinct first segment" but "exactly one distinct nonempty first segment". -/
theorem autoFlatten_distinct_firstSegs_counterexample :
    shouldFlatten false true (detectTopLevelDirs ["a/x".data, "/b".data]) = true ∧
    firstSeg ("a/x".data) ≠ firstSeg ("/b".data) := by
  decide

/-- C4 (amended): mode Always — the explicit flatten flag — always flattens
and strips exactly the first slash-delimited segment from every entry name;
an entry that flattens to the empty name (any name with no `'/'`, i.e. one
consisting only of its first segment) is skipped entirely by both per-entry
extractors.  Mode AutoIfSingleTopDir flattens if and only if the entries have
exactly one distinct *nonempty* first segment — entries whose first segment
is empty (an empty name, or a name starting with `'/'`) are ignored by the
detection — and otherwise extracts paths unchanged. -/
theorem flatten_modes_spec :
    (∀ (af : Bool) (tds : List (List Char)), shouldFlatten true af tds = true) ∧
    (∀ seg rest : List Char, '/' ∉ seg → stripTopLevel (seg ++ '/' :: rest) = rest) ∧
    (∀ name : List Char, '/' ∉ name → stripTopLevel name = []) ∧
    (∀ (dest : List Char) (e : ZipEntry), stripTopLevel e.name = [] →
      extractZipFile dest true e = .ok []) ∧
    (∀ (dest : List Char) (e : TarEntry), stripTopLevel e.name = [] →
      extractTarFile dest true e = .ok []) ∧
    (∀ names : List (List Char),
      shouldFlatten false true (detectTopLevelDirs names) = true ↔
        ∃ s, s ≠ [] ∧ (∃ n ∈ names, firstSeg n = s) ∧
          (∀ n ∈ names, firstSeg n = s ∨ firstSeg n = [])) := by
  refine ⟨?_, stripTopLevel_strips_first, stripTopLevel_no_slash, ?_, ?_, ?_⟩
  · intro af tds
    rfl
  · intro dest e h
    exact extractZipFile_skip dest true e ⟨rfl, by simp [postFlattenName, h]⟩
  · intro dest e h
    exact extractTarFile_skip dest true e ⟨rfl, by simp [postFlattenName, h]⟩
  · intro names
    rw [shouldFlatten_false_true, detect_length_one_iff]

/-- Witness for `flatten_modes_spec`: `app/x` flattens to `x`; an archive
with entries `app/a`, `app/b` auto-flattens and indeed has the single
nonempty first segment `app`. -/
theorem flatten_modes_spec_witness :
    ('/' ∉ ("app".data : List Char)) ∧
    stripTopLevel ("app".data ++ '/' :: "x".data) = "x".data ∧
    (shouldFlatten false true (detectTopLevelDirs ["app/a".data, "app/b".data]) = true ∧
      ∃ s, s ≠ [] ∧ (∃ n ∈ ["app/a".data, "app/b".data], firstSeg n = s) ∧
        (∀ n ∈ ["app/a".data, "app/b".data], firstSeg n = s ∨ firstSeg n = [])) :=
  ⟨by decide,
   flatten_modes_spec.2.1 "app".data "x".data (by decide),
   by decide,
   (flatten_modes_spec.2.2.2.2.2 ["app/a".data, "app/b".data]).1 (by decide)⟩

/-- Counterexample to C5: a mid-stream failure after 1 byte of a 2-byte body
returns an error but leaves the 1-byte partial file at the destination. -/
theorem download_partial_counterexample : ¬ downloadNoPartialClaim := by
  intro h
  rcases h 200 [1, 2] (some 1) (by decide) with hcon | hcon
  · exact absurd hcon (by decide)
  · exact absurd hcon (by decide)

/-- C5 (amended): a failed download reports an error, but the final
destination file is not removed on failure: it is created before streaming
begins, so a mid-stream failure after `k` bytes leaves the `k`-byte strict
prefix of the source at the destination; a non-200 response fails before the
destination is created, leaving no file; and a failure while copying chunk
`j` during the merge leaves the concatenation of chunks `0..j-1` in the
destination file. -/
theorem download_failure_leaves_partial_file (body : List Nat) (k : Nat)
    (hk : k < body.length) :
    (downloadSingle 200 body (some k)).1 = .error () ∧
    (downloadSingle 200 body (some k)).2 = some (body.take k) ∧
    body.take k ≠ body ∧
    (∀ status : Nat, status ≠ 200 → downloadSingle status body none = (.error (), none)) ∧
    (∀ (chunks : List (List Nat)) (j : Nat),
      mergeChunksPartial chunks (some j) = (.error (), some ((chunks.take j).flatten))) := by
  refine ⟨rfl, rfl, ?_, ?_, ?_⟩
  · intro hcon
    have hlen := congrArg List.length hcon
    rw [List.length_take] at hlen
    omega
  · intro status hs
    simp [downloadSingle, hs]
  · intro chunks j
    rfl

/-- Witness for `download_failure_leaves_partial_file` at a 2-byte body
failing after 1 byte. -/
theorem download_failure_leaves_partial_file_witness :
    1 < ([1, 2] : List Nat).length ∧
    (downloadSingle 200 [1, 2] (some 1)).2 = some (([1, 2] : List Nat).take 1) :=
  ⟨by decide, (download_failure_leaves_partial_file [1, 2] 1 (by decide)).2.1⟩

theorem charOfNat_toNat (n : Nat) (h1 : 97 ≤ n) (h2 : n ≤ 122) :
    (Char.ofNat n).toNat = n := by
  have hv : n.isValidChar := Or.inl (by omega)
  rw [Char.ofNat, dif_pos hv]
  rfl

theorem toLower_eq_dot (c : Char) (h : Char.toLower c = '.') : c = '.' := by
  by_cases hc : 65 ≤ c.toNat ∧ c.toNat ≤ 90
  · exfalso
    rw [Char.toLower] at h
    rw [if_pos (by exact ⟨hc.1, hc.2⟩)] at h
    have := congrArg Char.toNat h
    rw [charOfNat_toNat (c.toNat + 32) (by omega) (by omega)] at this
    have hdot : ('.' : Char).toNat = 46 := by decide
    omega
  · rw [Char.toLower] at h
    rw [if_neg (by exact hc)] at h
    exact h

theorem toLower_eq_slash (c : Char) (h : Char.toLower c = '/') : c = '/' := by
  by_cases hc : 65 ≤ c.toNat ∧ c.toNat ≤ 90
  · exfalso
    rw [Char.toLower] at h
    rw [if_pos (by exact ⟨hc.1, hc.2⟩)] at h
    have := congrArg Char.toNat h
    rw [charOfNat_toNat (c.toNat + 32) (by omega) (by omega)] at this
    have hsl : ('/' : Char).toNat = 47 := by decide
    omega
  · rw [Char.toLower] at h
    rw [if_neg (by exact hc)] at h
    exact h

theorem extRevA_isPre : ∀ l : List Char, extRevA l ≠ [] → extRevA l <+: l := by
  intro l
  induction l with
  | nil => simp [extRevA]
  | cons c cs ih =>
    intro hne
    rw [extRevA] at hne ⊢
    by_cases h1 : c = '/'
    · simp [h1] at hne
    · by_cases h2 : c = '.'
      · rw [if_neg h1, if_pos h2]
        subst h2
        exact ⟨cs, rfl⟩
      · rw [if_neg h1, if_neg h2] at hne ⊢
        rcases hE : extRevA cs with _ | ⟨x, xs⟩
        · rw [hE] at hne
          simp at hne
        · show c :: x :: xs <+: c :: cs
          refine List.cons_prefix_cons.2 ⟨rfl, ?_⟩
          have hpre := ih (by rw [hE]; simp)
          rw [hE] at hpre
          exact hpre

theorem extRevA_shape : ∀ l e : List Char, extRevA l = e → e ≠ [] →
    ∃ ds, e = ds ++ ['.'] ∧ '.' ∉ ds ∧ '/' ∉ ds := by
  intro l
  induction l with
  | nil =>
    intro e h hne
    rw [extRevA] at h
    exact absurd h.symm hne
  | cons c cs ih =>
    intro e h hne
    rw [extRevA] at h
    by_cases h1 : c = '/'
    · rw [if_pos h1] at h
      exact absurd h.symm hne
    · by_cases h2 : c = '.'
      · rw [if_neg h1, if_pos h2] at h
        exact ⟨[], by simp [← h], by simp, by simp⟩
      · rw [if_neg h1, if_neg h2] at h
        rcases hE : extRevA cs with _ | ⟨x, xs⟩
        · rw [hE] at h
          exact absurd h.symm hne
        · rw [hE] at h
          rcases ih (x :: xs) hE (by simp) with ⟨ds, hds, hdot, hslash⟩
          have h' : c :: x :: xs = e := h
          refine ⟨c :: ds, ?_, ?_, ?_⟩
          · rw [← h', hds]
            rfl
          · intro hcon
            rcases List.mem_cons.1 hcon with hcon | hcon
            · exact h2 hcon.symm
            · exact hdot hcon
          · intro hcon
            rcases List.mem_cons.1 hcon with hcon | hcon
            · exact h1 hcon.symm
            · exact hslash hcon

theorem extRevA_of_shape : ∀ ds t : List Char, '.' ∉ ds → '/' ∉ ds →
    extRevA (ds ++ '.' :: t) = ds ++ ['.'] := by
  intro ds
  induction ds with
  | nil =>
    intro t _ _
    rw [List.nil_append, extRevA, if_neg (by decide), if_pos rfl]
    rfl
  | cons c cs ih =>
    intro t hdot hslash
    have hc1 : ¬ c = '/' := fun hcon => hslash (by simp [hcon])
    have hc2 : ¬ c = '.' := fun hcon => hdot (by simp [hcon])
    have hcs1 : '.' ∉ cs := fun hcon => hdot (by simp [hcon])
    have hcs2 : '/' ∉ cs := fun hcon => hslash (by simp [hcon])
    rw [List.cons_append, extRevA, if_neg hc1, if_neg hc2, ih t hcs1 hcs2]
    rcases cs with _ | ⟨x, xs⟩ <;> rfl

theorem extRevA_lower_iff (wr : List Char) (hdot : '.' ∉ wr) (hslash : '/' ∉ wr) :
    ∀ l : List Char,
      (lowerL (extRevA l) = wr ++ ['.'] ↔ (wr ++ ['.']) <+: lowerL l) := by
  intro l
  constructor
  · intro h
    have hne : extRevA l ≠ [] := by
      intro hcon
      rw [hcon] at h
      have hlen := congrArg List.length h
      simp [lowerL] at hlen
    have hpre := extRevA_isPre l hne
    have hmap := List.IsPrefix.map Char.toLower hpre
    rw [lowerL] at h
    rw [h] at hmap
    exact hmap
  · intro hpre
    have hlen1 : wr.length + 1 ≤ l.length := by
      have hl := hpre.length_le
      simp only [lowerL, List.length_map, List.length_append,
        List.length_singleton] at hl ⊢
      omega
    have he : lowerL (l.take (wr.length + 1)) = wr ++ ['.'] := by
      have h0 := List.prefix_iff_eq_take.1 hpre
      rw [show (wr ++ ['.']).length = wr.length + 1 by simp] at h0
      rw [lowerL, List.map_take]
      rw [lowerL] at h0
      exact h0.symm
    set e := l.take (wr.length + 1) with heDef
    have helen : e.length = wr.length + 1 := by
      rw [heDef, List.length_take]
      omega
    have hene : e ≠ [] := by
      intro hcon
      rw [hcon] at helen
      simp at helen
    have hsplit := List.dropLast_append_getLast hene
    have hmapped : lowerL e.dropLast ++ [Char.toLower (e.getLast hene)]
        = wr ++ ['.'] := by
      have h1 := he
      rw [← hsplit] at h1
      rw [lowerL, List.map_append] at h1
      simpa [lowerL] using h1
    have hlens : (lowerL e.dropLast).length = wr.length := by
      simp [lowerL, List.length_dropLast, helen]
    obtain ⟨hds, hlast⟩ := List.append_inj hmapped hlens
    have hlast' : Char.toLower (e.getLast hene) = '.' := by
      simpa using hlast
    have hlc : e.getLast hene = '.' := toLower_eq_dot _ hlast'
    have hnodot : '.' ∉ e.dropLast := by
      intro hmem
      have hmm : Char.toLower '.' ∈ lowerL e.dropLast := List.mem_map_of_mem _ hmem
      rw [hds, show Char.toLower '.' = '.' from by decide] at hmm
      exact hdot hmm
    have hnoslash : '/' ∉ e.dropLast := by
      intro hmem
      have hmm : Char.toLower '/' ∈ lowerL e.dropLast := List.mem_map_of_mem _ hmem
      rw [hds, show Char.toLower '/' = '/' from by decide] at hmm
      exact hslash hmm
    have h2 : e = e.dropLast ++ ['.'] := by
      rw [← hlc]
      exact hsplit.symm
    have hdecomp : l = e.dropLast ++ '.' :: l.drop (wr.length + 1) := by
      calc l = e ++ l.drop (wr.length + 1) := by
              rw [heDef]
              exact (List.take_append_drop _ l).symm
        _ = (e.dropLast ++ ['.']) ++ l.drop (wr.length + 1) := by rw [← h2]
        _ = e.dropLast ++ '.' :: l.drop (wr.length + 1) := by
              rw [List.append_assoc]
              rfl
    rw [hdecomp, extRevA_of_shape e.dropLast (l.drop (wr.length + 1)) hnodot hnoslash,
      lowerL, List.map_append]
    rw [lowerL] at hds
    rw [hds]
    simp

theorem lower_goExt_eq_iff (w : List Char) (hdot : '.' ∉ w) (hslash : '/' ∉ w)
    (p : List Char) :
    (lowerL (goExt p) = '.' :: w ↔ ('.' :: w).isSuffixOf (lowerL p) = true) := by
  have hrev : (lowerL (goExt p) = '.' :: w ↔
      lowerL (extRevA p.reverse) = w.reverse ++ ['.']) := by
    unfold lowerL goExt
    rw [List.map_reverse, List.reverse_eq_iff, List.reverse_cons]
  have hsuf : (('.' :: w).isSuffixOf (lowerL p) = true ↔
      (w.reverse ++ ['.']) <+: lowerL p.reverse) := by
    rw [List.isSuffixOf_iff_suffix, ← List.reverse_prefix, List.reverse_cons]
    unfold lowerL
    rw [← List.map_reverse]
  rw [hrev, hsuf]
  exact extRevA_lower_iff w.reverse (by simpa using hdot) (by simpa using hslash)
    p.reverse

/-- Counterexample to C6 as stated: `data.GZ` dispatches to single-file gzip
(the extension check is case-insensitive), but `TrimSuffix(base, ".gz")` is
case-sensitive, so the output file name keeps the `.GZ` suffix instead of
having it removed as the claim requires. -/
theorem gzip_output_name_counterexample :
    extractDispatch ("data.GZ".data) ≠ claimDispatchC6 ("data.GZ".data) ∧
    extractDispatch ("data.GZ".data) = .gzip ("data.GZ".data) ∧
    claimDispatchC6 ("data.GZ".data) = .gzip ("data".data) := by
  decide

/-- C6 (amended): the extractor dispatches on the lowercased filename suffix —
a name ending in `.zip` (case-insensitively) selects the ZIP reader, `.tar`
selects the TAR reader, a `.gz` suffix whose lowercased full name ends in
`.tar.gz` selects gzip-then-TAR, any other `.gz` selects single-file gzip
decompression whose output name is the base name with a trailing literal
(lowercase) `.gz` removed and is otherwise unchanged, and every other suffix
yields an unsupported-archive-format error carrying the extension. -/
theorem extractDispatch_spec : ∀ p : List Char,
    extractDispatch p = amendedDispatchC6 p := by
  intro p
  have e1 : (".zip".data : List Char) = '.' :: "zip".data := by decide
  have e2 : (".tar".data : List Char) = '.' :: "tar".data := by decide
  have e3 : (".gz".data : List Char) = '.' :: "gz".data := by decide
  have hzip := lower_goExt_eq_iff "zip".data (by decide) (by decide) p
  have htar := lower_goExt_eq_iff "tar".data (by decide) (by decide) p
  have hgz := lower_goExt_eq_iff "gz".data (by decide) (by decide) p
  rw [← e1] at hzip
  rw [← e2] at htar
  rw [← e3] at hgz
  unfold extractDispatch amendedDispatchC6
  by_cases h1 : lowerL (goExt p) = ".zip".data
  · rw [if_pos h1, if_pos (hzip.1 h1)]
  · rw [if_neg h1, if_neg (fun hcon => h1 (hzip.2 hcon))]
    by_cases h2 : lowerL (goExt p) = ".gz".data
    · rw [if_pos h2]
      have ht2 : ¬ ((".tar".data).isSuffixOf (lowerL p) = true) := by
        intro hcon
        have hx := htar.2 hcon
        rw [h2] at hx
        exact absurd hx (by decide)
      rw [if_neg ht2]
      by_cases h3 : (".tar.gz".data).isSuffixOf (lowerL p) = true
      · rw [if_pos h3, if_pos h3]
      · rw [if_neg h3, if_neg h3, if_pos (hgz.1 h2)]
    · rw [if_neg h2]
      by_cases h4 : lowerL (goExt p) = ".tar".data
      · rw [if_pos h4, if_pos (htar.1 h4)]
      · rw [if_neg h4, if_neg (fun hcon => h4 (htar.2 hcon))]
        have hg2 : ¬ ((".gz".data).isSuffixOf (lowerL p) = true) :=
          fun hcon => h2 (hgz.2 hcon)
        have htg2 : ¬ ((".tar.gz".data).isSuffixOf (lowerL p) = true) := by
          intro hcon
          apply hg2
          rw [List.isSuffixOf_iff_suffix] at hcon ⊢
          exact List.IsSuffix.trans (by decide) hcon
        rw [if_neg htg2, if_neg hg2]

theorem classifyDirs_eq (home : List Char) :
    ∀ dirs, classifyDirs home dirs =
      ((survivors dirs).filter (dirHigh home),
       (survivors dirs).filter (dirNormal home),
       (survivors dirs).filter dirLow) := by
  intro dirs
  induction dirs with
  | nil => rfl
  | cons d rest ih =>
    simp only [classifyDirs, survivors]
    by_cases hd : d = []
    · rw [if_pos hd, if_pos hd, ih]
    · rw [if_neg hd, if_neg hd]
      by_cases hp : isProblematicPath (goClean d) = true
      · rw [if_pos hp, if_pos hp, ih]
      · rw [if_neg hp, if_neg hp, ih]
        by_cases hl : isLanguageSpecificPath (goClean d) = true
        · rw [if_pos hl]
          simp [List.filter_cons, dirHigh, dirNormal, dirLow, hl]
        · rw [if_neg hl]
          rw [Bool.not_eq_true] at hl
          by_cases hh : (hasPrefixL home (goClean d)
              && !isLanguageSpecificPath (goClean d)) = true
          · rw [if_pos hh]
            rw [Bool.and_eq_true, Bool.not_eq_true'] at hh
            simp [List.filter_cons, dirHigh, dirNormal, dirLow, hl, hh.1]
          · rw [if_neg hh]
            rw [Bool.and_eq_true] at hh
            have hpre : hasPrefixL home (goClean d) = false := by
              by_contra hcon
              rw [Bool.not_eq_false] at hcon
              exact hh ⟨hcon, by simp [hl]⟩
            by_cases hq : isPreferredSystemPath (goClean d) = true
            · rw [if_pos hq]
              simp [List.filter_cons, dirHigh, dirNormal, dirLow, hl, hpre, hq]
            · rw [if_neg hq]
              rw [Bool.not_eq_true] at hq
              simp [List.filter_cons, dirHigh, dirNormal, dirLow, hl, hpre, hq]

/-- C7: for every PATH value and home directory, the resolver's candidate
list is exactly the surviving (nonempty, cleaned, non-problematic) entries of
PATH, each in exactly one priority class — Low when the language/package-
manager heuristic fires, else High when under the home directory or a
preferred system path, else Normal — concatenated High ++ Normal ++ Low with
the original relative order preserved inside each class (filters preserve
order).  In particular, on the concrete PATH of the last conjunct the
home-relative `~/bin` directory is ordered before the `site-packages`
(language-specific) directory. -/
theorem getPathDirectories_spec :
    (∀ pathEnv home : List Char,
      getPathDirectories pathEnv home =
        (survivors (splitOnChar ':' pathEnv)).filter (dirHigh home) ++
        (survivors (splitOnChar ':' pathEnv)).filter (dirNormal home) ++
        (survivors (splitOnChar ':' pathEnv)).filter dirLow) ∧
    (∀ (home : List Char) (d : List Char),
      (dirHigh home d = true ∧ dirNormal home d = false ∧ dirLow d = false) ∨
      (dirHigh home d = false ∧ dirNormal home d = true ∧ dirLow d = false) ∨
      (dirHigh home d = false ∧ dirNormal home d = false ∧ dirLow d = true)) ∧
    getPathDirectories ("/home/u/bin:/opt/python3/site-packages:/usr/bin".data)
        ("/home/u".data)
      = ["/home/u/bin".data, "/usr/bin".data, "/opt/python3/site-packages".data] := by
  refine ⟨?_, ?_, ?_⟩
  · intro pathEnv home
    by_cases hemp : pathEnv = []
    · subst hemp
      rfl
    · rw [getPathDirectories, if_neg hemp, classifyDirs_eq]
  · intro home d
    by_cases hl : dirLow d = true
    · refine Or.inr (Or.inr ⟨?_, ?_, hl⟩)
      · rw [dirLow] at hl
        simp [dirHigh, hl]
      · simp [dirNormal, hl]
    · by_cases hh : dirHigh home d = true
      · refine Or.inl ⟨hh, ?_, ?_⟩
        · simp [dirNormal, hh]
        · rw [Bool.not_eq_true] at hl
          exact hl
      · rw [Bool.not_eq_true] at hl hh
        exact Or.inr (Or.inl ⟨hh, by simp [dirNormal, hl, hh], hl⟩)
  · decide

theorem fallbackScan_ok (create : List Char → FsNode) :
    ∀ (ds : List (List Char)) (fs : List (List Char × FsNode)) (d : List Char),
      fallbackScan create fs ds = .ok d →
      d ∈ ds ∧ ∃ g, isDirectoryWritable (mkdirAllModel create g d) d = true := by
  intro ds
  induction ds with
  | nil =>
    intro fs d h
    exact absurd h (by simp [fallbackScan])
  | cons e rest ih =>
    intro fs d h
    rw [fallbackScan] at h
    by_cases hw : isDirectoryWritable (mkdirAllModel create fs e) e = true
    · rw [if_pos hw] at h
      simp only [Except.ok.injEq] at h
      subst h
      exact ⟨by simp, fs, hw⟩
    · rw [if_neg hw] at h
      rcases ih _ d h with ⟨hmem, hg⟩
      exact ⟨by simp [hmem], hg⟩

/-- C9: when no PATH-derived candidate passes the writability probe, the
resolver proceeds to the platform-specific fallback list: each fallback entry
is created if absent and probed with the same `isDirectoryWritable`; any
successful result is an entry of `getFallbackDirectories` that passed the
probe after its creation attempt; and exhausting the list yields the explicit
no-writable-directory error. -/
theorem findWritableInstallPath_fallback (pathEnv home : List Char)
    (fs : List (List Char × FsNode)) (create : List Char → FsNode)
    (hnone : ∀ d ∈ getPathDirectories pathEnv home,
      isDirectoryWritable fs d = false) :
    findWritableInstallPath pathEnv home fs create
      = fallbackScan create fs (getFallbackDirectories home) ∧
    (∀ d, fallbackScan create fs (getFallbackDirectories home) = .ok d →
      d ∈ getFallbackDirectories home ∧
      ∃ g, isDirectoryWritable (mkdirAllModel create g d) d = true) ∧
    (∀ fs0 : List (List Char × FsNode),
      fallbackScan create fs0 []
        = .error ("no writable installation directory found".data)) := by
  refine ⟨?_, fun d => fallbackScan_ok create _ fs d, fun fs0 => rfl⟩
  rw [findWritableInstallPath]
  have hfind : (getPathDirectories pathEnv home).find?
      (fun d => isDirectoryWritable fs d) = none := by
    rw [List.find?_eq_none]
    intro x hx
    simp [hnone x hx]
  rw [hfind]

/-- Witness for `findWritableInstallPath_fallback`: a PATH whose only entry
is an absent directory, an empty file system, and an environment whose
directory creation succeeds: the resolver returns the first fallback,
`~/.local/bin`. -/
theorem findWritableInstallPath_fallback_witness :
    (∀ d ∈ getPathDirectories ("/nope".data) ("/h".data),
      isDirectoryWritable [] d = false) ∧
    findWritableInstallPath ("/nope".data) ("/h".data) []
        (fun _ => FsNode.dirWritable)
      = .ok ("/h/.local/bin".data) :=
  ⟨by decide,
   ((findWritableInstallPath_fallback ("/nope".data) ("/h".data) []
      (fun _ => FsNode.dirWritable) (by decide)).1).trans (by decide)⟩
